import Mathlib

/-!
Verification of the crossword CSP solver in `generate.py`
(class `CrosswordCreator`).

The Python code is shallowly embedded as Lean functions:

* a word is a `List Char` (Python string);
* the Domain Store `self.domains` is a function `Variable → List Char`
  where each list models a Python set of words with a fixed canonical
  iteration order (the spec, §4.2 and §9, requires implementations to
  impose a canonical deterministic order on set iteration);
* the Python dict `assignment` is an association list, with new keys
  appended at the end exactly as dict insertion order does;
* destructive updates of `self.domains` become explicit state passing:
  functions that mutate the store take a `Domains` and return a new one;
* Python functions that can fall through without a `return` statement
  (as `ac3` does when its work queue starts empty) return an `Option`,
  `none` standing for Python's implicit `None`.

The `Crossword` / `Variable` collaborator classes (`crossword.py`) are
not part of the sources; their interface is modelled from the spec
(§2 "Slot Model", §3 "Data Model", §6 "External Interfaces").
-/

/-- A slot's identity: position of first cell, orientation, and length.
Modelled from the spec: "Slot: identity = (row, column of first cell,
orientation ∈ \x7bacross, down\x7d, length). Immutable." -/
structure Variable where
  i : Nat
  j : Nat
  down : Bool
  length : Nat
deriving DecidableEq

/-- A candidate word: a Python string, as its list of characters. -/
abbrev Word := List Char

/-- The Domain Store: per-slot list of still-possible words. -/
abbrev Domains := Variable → List Word

/-- A (partial) assignment: Python dict from `Variable` to word, as an
association list in insertion order. -/
abbrev Assign := List (Variable × Word)

/-- Modelled from the spec: the Slot Model collaborator (`crossword.py`,
absent from the sources) supplies "the finite set of slots", "a finite
set of candidate words", and "the neighbor relation and, for each
neighbor pair, the (index-in-x, index-in-y) overlap" (§6).  `overlaps`
returns `none` for non-intersecting pairs, mirroring
`self.crossword.overlaps[x, y]` being `None`. -/
structure Crossword where
  vars : List Variable   -- source name `variables` (a Lean keyword)
  words : List Word
  overlaps : Variable → Variable → Option (Nat × Nat)

/-- Modelled from the spec: "Neighbor relation: derived from overlaps;
slot A and B are neighbors iff they share exactly one cell" (§3), i.e.
the distinct slots with which a slot has an overlap.  Embeds
`self.crossword.neighbors(x)`. -/
def neighbors (c : Crossword) (x : Variable) : List Variable :=
  c.vars.filter (fun y => decide (y ≠ x) && (c.overlaps x y).isSome)

/-- Python dict lookup `assignment[x]` / `x in assignment`, as an
association-list lookup. -/
def dictGet (assignment : Assign) (x : Variable) : Option Word :=
  match assignment with
  | [] => none
  | (k, v) :: rest => if k = x then some v else dictGet rest x

/-- Character access `word[n]` (total model: in every reachable call the
index is within range, see the length invariants). -/
def charAt (w : Word) (n : Nat) : Char :=
  w.getD n ' '

/-- `word[n]` where the word came out of a dict lookup that is known to
succeed (`assignment[x][a]` in the source). -/
def optCharAt (o : Option Word) (n : Nat) : Char :=
  charAt (o.getD []) n

/-- `CrosswordCreator.__init__`: the Domain Store starts as a copy of the
full word list for every variable. -/
def initDomains (c : Crossword) : Domains :=
  fun _ => c.words

/-- `enforce_node_consistency`: for every variable remove every word of
mismatched length from its domain (`self.domains[variable].remove(word)`
for each `word` in `self.crossword.words` with
`variable.length != len(word)`). -/
def enforce_node_consistency (c : Crossword) (d : Domains) : Domains :=
  c.vars.foldl
    (fun d var =>   -- source loop binder `variable` (a Lean keyword)
      c.words.foldl
        (fun d word =>
          if var.length ≠ word.length then
            Function.update d var ((d var).erase word)
          else d)
        d)
    d

/-- The domains as they stand when `solve` has run `enforce_node_consistency`
on the freshly initialised store. -/
def nodeConsistentDomains (c : Crossword) : Domains :=
  enforce_node_consistency c (initDomains c)

/-- `revise(x, y)`: remove from `self.domains[x]` every word with no
possible corresponding value in `self.domains[y]` at the overlap
`(a, b) = self.crossword.overlaps[x, y]`; return whether a revision was
made.  The loop iterates over a snapshot `words` of `self.domains[x]`
and mutates the store entry of `x`; the state pair carries the evolving
store and the `revision` flag.  `reviseStep` is one iteration of the
`for word in words` loop; `revise` folds it over the snapshot. -/
def reviseStep (x y : Variable) (ab : Nat × Nat) (st : Domains × Bool)
    (word : Word) : Domains × Bool :=
  if (st.1 y).any (fun checkword => charAt word ab.1 == charAt checkword ab.2) then
    st
  else
    (Function.update st.1 x ((st.1 x).erase word), true)

/-- The whole of `revise(x, y)`: fold the loop body over the snapshot,
starting from the unrevised store with `revision = False`. -/
def revise (c : Crossword) (d : Domains) (x y : Variable) : Domains × Bool :=
  let ab := (c.overlaps x y).getD (0, 0)
  let words := d x
  words.foldl (reviseStep x y ab) (d, false)

/-- The initial work queue of `ac3`: the source always fills `queue` with
every pair `(x, y)` with `y` a neighbor of `x`, never reading the `arcs`
parameter (the queue is a Python set; we model it as a duplicate-free
list in insertion order). -/
def ac3InitQueue (c : Crossword) (arcs : Option (List (Variable × Variable))) :
    List (Variable × Variable) :=
  match arcs with
  | _ =>
    c.vars.foldl
      (fun queue x =>
        (neighbors c x).foldl
          (fun queue y => if (x, y) ∈ queue then queue else queue ++ [(x, y)])
          queue)
      []

/-- `ac3(arcs)`: pop an arc from the work queue and `revise` it.  In the
source the `return True` statement sits inside the `while` loop body, so
the first popped arc already ends the loop: `False` if that revision
emptied a domain, `True` otherwise.  When the queue starts empty the
loop body never runs and the function falls through, returning Python's
implicit `None` (modelled as `none`). -/
def ac3 (c : Crossword) (d : Domains) (arcs : Option (List (Variable × Variable))) :
    Domains × Option Bool :=
  match ac3InitQueue c arcs with
  | [] => (d, none)
  | (x, y) :: _rest =>
    let r := revise c d x y
    if r.2 then
      if (r.1 x).length = 0 then (r.1, some false)
      else
        -- the source now re-enqueues (z, x) for the neighbors z ≠ y of x,
        -- but the unconditional return that follows discards the queue
        (r.1, some true)
    else (r.1, some true)

/-- `assignment_complete`: every crossword variable has a value. -/
def assignment_complete (c : Crossword) (assignment : Assign) : Bool :=
  c.vars.all (fun x => decide (x ∈ assignment.map Prod.fst))

/-- `consistent(assignment)`: `False` when two distinct assigned slots
hold equal words, `False` when an assigned neighbor pair disagrees on
the letters at their overlap indices, `True` otherwise.  The two Python
loops over the dict keys become two `all` passes. -/
def consistent (c : Crossword) (assignment : Assign) : Bool :=
  ((assignment.map Prod.fst).all fun x =>
    (assignment.map Prod.fst).all fun y =>
      !decide (x ≠ y ∧ dictGet assignment x = dictGet assignment y)) &&
  ((assignment.map Prod.fst).all fun x =>
    (neighbors c x).all fun var =>
      -- (a, b) = self.crossword.overlaps[x, var], unpacked before the
      -- `if var in assignment` membership test
      !decide ((dictGet assignment var).isSome ∧
        optCharAt (dictGet assignment x) ((c.overlaps x var).getD (0, 0)).1
          ≠ optCharAt (dictGet assignment var) ((c.overlaps x var).getD (0, 0)).2))

/-- `order_domain_values(var, assignment)`: count, for each candidate
word, the unassigned neighbors whose domain contains that word, then
stable-sort the candidates by ascending count (`temp.sort(key=...)`;
Python's sort is stable, which a stable insertion sort reproduces
exactly). -/
def order_domain_values (c : Crossword) (d : Domains) (var : Variable)
    (assignment : Assign) : List Word :=
  let words := d var
  let nbrs := neighbors c var
  let num_rule_out := words.map (fun val =>
    nbrs.foldl
      (fun count neighbor =>
        if (dictGet assignment neighbor).isNone && decide (val ∈ d neighbor) then
          count + 1
        else count)
      0)
  let temp := (words.zip num_rule_out).insertionSort (fun x y => x.2 ≤ y.2)
  temp.map (fun word => word.1)

/-- The comparator `compare` defined inside `select_unassigned_variable`:
ascending remaining-domain-size, ties broken by descending degree.  An
element of `temp` is `((variable, num_val), degree)`, so `x[1]` is
`x.1.2` and `x[2]` is `x.2`. -/
def compare_vars (x y : (Variable × Nat) × Nat) : Int :=
  if x.1.2 ≠ y.1.2 then
    if x.1.2 > y.1.2 then 1 else -1
  else
    if x.2 > y.2 then -1
    else if x.2 < y.2 then 1
    else 0

/-- `select_unassigned_variable(assignment)`: zip the unassigned
variables with their domain sizes and degrees, sort with
`functools.cmp_to_key(compare)` (a stable sort by the comparator, which
the stable insertion sort reproduces), and take the variable of the
first element.  `temp[0]` on an empty list would raise in Python; the
function is only called on incomplete assignments, so the list is never
empty there, and the model returns an `Option`. -/
def select_unassigned_variable (c : Crossword) (d : Domains)
    (assignment : Assign) : Option Variable :=
  let vars := c.vars.filter (fun v => (dictGet assignment v).isNone)
  let num_val := vars.map (fun var => (d var).length)
  let degree := vars.map (fun var => (neighbors c var).length)
  let temp := (vars.zip num_val).zip degree
  let sorted := temp.insertionSort (fun x y => compare_vars x y ≤ 0)
  (sorted.map (fun t => t.1.1)).head?

/-- The `for value in ...` loop body of `backtrack`: try each value in
order; on a consistent extension recurse (through `bt`, the backtracking
continuation), propagate a non-`None` result, and otherwise undo the
tentative assignment (the continuation is always called on the original
`assignment`, matching `del assignment[var]`).  The Domain Store is
threaded through explicitly so that any mutation by the recursive call
would be visible to the subsequent iterations. -/
def tryValues (c : Crossword) (bt : Domains → Assign → Option Assign × Domains)
    (var : Variable) : Domains → Assign → List Word → Option Assign × Domains
  | d, _assignment, [] => (none, d)
  | d, assignment, value :: rest =>
    let a := assignment ++ [(var, value)]
    if consistent c a then
      match bt d a with
      | (some result, d2) => (some result, d2)
      | (none, d2) => tryValues c bt var d2 assignment rest
    else tryValues c bt var d assignment rest

/-- `backtrack(assignment)`, with an explicit recursion-depth bound: per
spec §5 the "recursion/backtracking depth is bounded by the number of
slots", and every recursive call assigns one previously unassigned
slot, so the number of unassigned slots (the value `backtrack` is run
with) is an exact bound; at depth 0 the assignment is complete in every
reachable call.  Returns the search result together with the (never
mutated) Domain Store. -/
def backtrackAux (c : Crossword) : Nat → Domains → Assign → Option Assign × Domains
  | 0, d, assignment =>
    (if assignment_complete c assignment then some assignment else none, d)
  | n + 1, d, assignment =>
    if assignment_complete c assignment then (some assignment, d)
    else
      match select_unassigned_variable c d assignment with
      | none => (none, d)
      | some var =>
        tryValues c (backtrackAux c n) var d assignment
          (order_domain_values c d var assignment)

/-- The number of still-unassigned slots: the recursion-depth bound for
`backtrack`. -/
def unassignedCount (c : Crossword) (assignment : Assign) : Nat :=
  (c.vars.filter (fun v => (dictGet assignment v).isNone)).length

/-- `backtrack(assignment)` as called by the solver. -/
def backtrack (c : Crossword) (d : Domains) (assignment : Assign) :
    Option Assign × Domains :=
  backtrackAux c (unassignedCount c assignment) d assignment

/-- `solve()`: enforce node consistency, run `ac3` (its Boolean result is
ignored by the source), then backtrack from the empty assignment. -/
def solve (c : Crossword) : Option Assign :=
  let d1 := enforce_node_consistency c (initDomains c)
  let r := ac3 c d1 none
  (backtrack c r.1 []).1

/-- Invariant I2 of the spec: every word in a slot's domain has a
matching partner in each neighbor's domain at the overlap indices. -/
def arcConsistentAll (c : Crossword) (d : Domains) : Prop :=
  ∀ x ∈ c.vars, ∀ y ∈ neighbors c x, ∀ w ∈ d x,
    ∃ w2 ∈ d y,
      charAt w ((c.overlaps x y).getD (0, 0)).1 =
        charAt w2 ((c.overlaps x y).getD (0, 0)).2

instance (c : Crossword) (d : Domains) : Decidable (arcConsistentAll c d) := by
  unfold arcConsistentAll
  infer_instance

/-- The invariant maintained by the backtracking search: keys are
distinct crossword variables, every assigned word comes from the
(read-only) domain of its slot, and the assignment passed the
consistency check. -/
def SearchInv (c : Crossword) (d : Domains) (a : Assign) : Prop :=
  (a.map Prod.fst).Nodup ∧ (∀ p ∈ a, p.1 ∈ c.vars ∧ p.2 ∈ d p.1) ∧
    consistent c a = true

/-- What holds of any assignment returned by the backtracking search:
it is complete and still satisfies the search invariant. -/
def SearchGood (c : Crossword) (d : Domains) (r : Assign) : Prop :=
  assignment_complete c r = true ∧ SearchInv c d r

/-! ### Concrete instances used as failing inputs and witnesses -/

/-- A horizontal slot of length 3 starting at cell (0, 0). -/
def vX : Variable := ⟨0, 0, false, 3⟩

/-- A vertical slot of length 3 starting at cell (0, 2). -/
def vY : Variable := ⟨0, 2, true, 3⟩

/-- The word "abc". -/
def wABC : Word := ['a', 'b', 'c']

/-- The word "cat". -/
def wCAT : Word := ['c', 'a', 't']

/-- The word "dog". -/
def wDOG : Word := ['d', 'o', 'g']

/-- The word "ab". -/
def wAB : Word := ['a', 'b']

/-- Two crossing slots of length 3: `vX` runs across (0,0)–(0,2), `vY`
runs down (0,2)–(2,2); they share the single cell (0,2), at index 2 of
`vX` and index 0 of `vY`.  Word list: "abc", "cat", "dog". -/
def cw1 : Crossword where
  vars := [vX, vY]
  words := [wABC, wCAT, wDOG]
  overlaps := fun p q =>
    if p = vX ∧ q = vY then some (2, 0)
    else if p = vY ∧ q = vX then some (0, 2)
    else none

/-- Two disjoint slots of length 3 (no shared cell, so no neighbors) and
a word list containing only the two-letter word "ab", so that
node-consistency enforcement empties both domains. -/
def cwB : Crossword where
  vars := [vX, vY]
  words := [wAB]
  overlaps := fun _ _ => none

/-! ### Helper lemmas: dictionary lookups -/

theorem dictGet_eq_none_iff (a : Assign) (x : Variable) :
    dictGet a x = none ↔ x ∉ a.map Prod.fst := by
  induction a with
  | nil => simp [dictGet]
  | cons p rest ih =>
    obtain ⟨k, v⟩ := p
    by_cases h : k = x
    · subst h
      simp [dictGet]
    · simp [dictGet, h, ih, Ne.symm h]

theorem dictGet_mem {a : Assign} {x : Variable} {w : Word}
    (h : dictGet a x = some w) : (x, w) ∈ a := by
  induction a with
  | nil => simp [dictGet] at h
  | cons p rest ih =>
    obtain ⟨k, v⟩ := p
    by_cases hk : k = x
    · rw [dictGet, if_pos hk] at h
      injection h with h2
      subst hk
      subst h2
      exact List.mem_cons_self _ _
    · rw [dictGet, if_neg hk] at h
      exact List.mem_cons_of_mem _ (ih h)

theorem dictGet_isSome_iff (a : Assign) (x : Variable) :
    (dictGet a x).isSome = true ↔ x ∈ a.map Prod.fst := by
  cases h : dictGet a x with
  | none =>
    simp only [Option.isSome_none, Bool.false_eq_true, false_iff]
    exact (dictGet_eq_none_iff a x).mp h
  | some w =>
    simp only [Option.isSome_some, true_iff]
    exact List.mem_map.mpr ⟨(x, w), dictGet_mem h, rfl⟩

theorem mem_dictGet {a : Assign} (hnd : (a.map Prod.fst).Nodup)
    {x : Variable} {w : Word} (h : (x, w) ∈ a) : dictGet a x = some w := by
  induction a with
  | nil => simp at h
  | cons p rest ih =>
    obtain ⟨k, v⟩ := p
    simp only [List.map_cons, List.nodup_cons] at hnd
    rcases List.mem_cons.mp h with h1 | h1
    · injection h1 with hk hw
      subst hk
      subst hw
      simp [dictGet]
    · have hkx : k ≠ x := by
        intro hk
        exact hnd.1 (List.mem_map.mpr ⟨(x, w), h1, hk.symm⟩)
      rw [dictGet, if_neg hkx]
      exact ih hnd.2 h1

/-! ### Helper lemmas: the neighbor relation -/

theorem mem_neighbors {c : Crossword} {x y : Variable} :
    y ∈ neighbors c x ↔ y ∈ c.vars ∧ y ≠ x ∧ (c.overlaps x y).isSome := by
  simp [neighbors, List.mem_filter]

theorem neighbors_ne {c : Crossword} {x y : Variable}
    (h : y ∈ neighbors c x) : y ≠ x :=
  (mem_neighbors.mp h).2.1

/-! ### Helper lemmas: node consistency -/

theorem ncInnerFold_apply_ne (var : Variable) (L : Nat) :
    ∀ (ws : List Word) (d : Domains) (v : Variable), v ≠ var →
    (ws.foldl
      (fun d word =>
        if L ≠ word.length then Function.update d var ((d var).erase word) else d)
      d) v = d v := by
  intro ws
  induction ws with
  | nil => intro d v hv; rfl
  | cons w t ih =>
    intro d v hv
    simp only [List.foldl_cons]
    rw [ih _ v hv]
    split
    · exact Function.update_noteq hv _ _
    · rfl

theorem ncInnerFold_apply_self (var : Variable) (L : Nat) :
    ∀ (ws : List Word) (d : Domains), (d var).Nodup →
    (ws.foldl
      (fun d word =>
        if L ≠ word.length then Function.update d var ((d var).erase word) else d)
      d) var
      = (d var).filter (fun w => !(decide (L ≠ w.length) && decide (w ∈ ws))) := by
  intro ws
  induction ws with
  | nil =>
    intro d _
    refine (List.filter_eq_self.mpr ?_).symm
    intro w _
    simp
  | cons u t ih =>
    intro d hnd
    simp only [List.foldl_cons]
    by_cases hu : L ≠ u.length
    · rw [if_pos hu]
      have hupd : (Function.update d var ((d var).erase u)) var = (d var).erase u :=
        Function.update_same _ _ _
      rw [ih _ (by rw [hupd]; exact hnd.erase u), hupd, hnd.erase_eq_filter u,
        List.filter_filter]
      refine List.filter_congr ?_
      intro w _
      by_cases hw : w = u
      · subst hw
        simp [hu]
      · simp [hw, Ne.symm hw]
    · rw [if_neg hu]
      rw [ih _ hnd]
      refine List.filter_congr ?_
      intro w _
      by_cases hw : w = u
      · subst hw
        simp at hu
        simp [hu]
      · simp [hw]

theorem ncOuterFold_apply_notmem (c : Crossword) :
    ∀ (l : List Variable) (d : Domains) (v : Variable), v ∉ l →
    (l.foldl
      (fun d var =>
        c.words.foldl
          (fun d word =>
            if var.length ≠ word.length then
              Function.update d var ((d var).erase word)
            else d)
          d)
      d) v = d v := by
  intro l
  induction l with
  | nil => intro d v _; rfl
  | cons a t ih =>
    intro d v hv
    simp only [List.foldl_cons]
    rw [ih _ v (fun h => hv (List.mem_cons_of_mem _ h))]
    exact ncInnerFold_apply_ne a a.length c.words d v (fun h => hv (h ▸ List.mem_cons_self _ _))

theorem ncOuterFold_apply_mem (c : Crossword) :
    ∀ (l : List Variable) (d : Domains), l.Nodup → ∀ var ∈ l, (d var).Nodup →
    (l.foldl
      (fun d var =>
        c.words.foldl
          (fun d word =>
            if var.length ≠ word.length then
              Function.update d var ((d var).erase word)
            else d)
          d)
      d) var
      = (d var).filter
          (fun w => !(decide (var.length ≠ w.length) && decide (w ∈ c.words))) := by
  intro l
  induction l with
  | nil => intro d _ var hvar; simp at hvar
  | cons a t ih =>
    intro d hnd var hvar hdnd
    simp only [List.nodup_cons] at hnd
    simp only [List.foldl_cons]
    rcases List.mem_cons.mp hvar with h1 | h1
    · subst h1
      rw [ncOuterFold_apply_notmem c t _ var hnd.1,
        ncInnerFold_apply_self var var.length c.words d hdnd]
    · have hva : var ≠ a := by
        intro hh
        subst hh
        exact hnd.1 h1
      rw [ih _ hnd.2 var h1
        (by rw [ncInnerFold_apply_ne a a.length c.words d var hva]; exact hdnd),
        ncInnerFold_apply_ne a a.length c.words d var hva]

theorem nodeConsistentDomains_char (c : Crossword)
    (hw : c.words.Nodup) {var : Variable} (hv : c.vars.Nodup) (hmem : var ∈ c.vars) :
    nodeConsistentDomains c var
      = c.words.filter (fun w => decide (var.length = w.length)) := by
  unfold nodeConsistentDomains enforce_node_consistency
  rw [ncOuterFold_apply_mem c c.vars (initDomains c) hv var hmem hw]
  refine List.filter_congr ?_
  intro w hwmem
  simp only [initDomains] at hwmem
  simp [hwmem, eq_comm]

/-! ### Helper lemmas: revise -/

theorem reviseFold_apply_ne (x y : Variable) (ab : Nat × Nat) :
    ∀ (ws : List Word) (st : Domains × Bool) (v : Variable), v ≠ x →
    ((ws.foldl (reviseStep x y ab) st).1) v = st.1 v := by
  intro ws
  induction ws with
  | nil => intro st v _; rfl
  | cons w t ih =>
    intro st v hv
    simp only [List.foldl_cons]
    rw [ih _ v hv]
    unfold reviseStep
    split
    · rfl
    · exact Function.update_noteq hv _ _

theorem reviseFold_sublist (x y : Variable) (ab : Nat × Nat) :
    ∀ (ws : List Word) (st : Domains × Bool) (v : Variable),
    List.Sublist (((ws.foldl (reviseStep x y ab) st).1) v) (st.1 v) := by
  intro ws
  induction ws with
  | nil => intro st v; exact List.Sublist.refl _
  | cons w t ih =>
    intro st v
    simp only [List.foldl_cons]
    refine (ih _ v).trans ?_
    unfold reviseStep
    split
    · exact List.Sublist.refl _
    · show List.Sublist (Function.update st.1 x ((st.1 x).erase w) v) (st.1 v)
      by_cases hv : v = x
      · subst hv
        rw [Function.update_same]
        exact List.erase_sublist _ _
      · rw [Function.update_noteq hv _ _]

theorem reviseFold_apply_self (x y : Variable) (ab : Nat × Nat) (hxy : x ≠ y) :
    ∀ (ws : List Word) (st : Domains × Bool), (st.1 x).Nodup →
    ((ws.foldl (reviseStep x y ab) st).1) x
      = (st.1 x).filter
          (fun w =>
            (st.1 y).any (fun cw => charAt w ab.1 == charAt cw ab.2)
              || !decide (w ∈ ws)) := by
  intro ws
  induction ws with
  | nil =>
    intro st _
    refine (List.filter_eq_self.mpr ?_).symm
    intro w _
    simp
  | cons u t ih =>
    intro st hnd
    simp only [List.foldl_cons]
    by_cases hc : (st.1 y).any (fun cw => charAt u ab.1 == charAt cw ab.2) = true
    · rw [show reviseStep x y ab st u = st from by unfold reviseStep; rw [if_pos hc]]
      rw [ih st hnd]
      refine List.filter_congr ?_
      intro w _
      by_cases hw : w = u
      · subst hw
        simp [hc]
      · simp [hw]
    · have hstep : reviseStep x y ab st u
          = (Function.update st.1 x ((st.1 x).erase u), true) := by
        unfold reviseStep
        rw [if_neg hc]
      rw [hstep]
      have hx1 : (Function.update st.1 x ((st.1 x).erase u), true).1 x
          = (st.1 x).erase u := Function.update_same _ _ _
      have hy1 : (Function.update st.1 x ((st.1 x).erase u), true).1 y
          = st.1 y := Function.update_noteq (Ne.symm hxy) _ _
      rw [ih _ (by rw [hx1]; exact hnd.erase u), hx1, hy1,
        hnd.erase_eq_filter u, List.filter_filter]
      refine List.filter_congr ?_
      intro w _
      by_cases hw : w = u
      · subst hw
        simp [hc]
      · simp [hw, Ne.symm hw]

theorem revise_apply_ne (c : Crossword) (d : Domains) {x : Variable} (y : Variable)
    {v : Variable} (hv : v ≠ x) : (revise c d x y).1 v = d v := by
  unfold revise
  exact reviseFold_apply_ne x y _ (d x) (d, false) v hv

theorem revise_sublist (c : Crossword) (d : Domains) (x y v : Variable) :
    List.Sublist ((revise c d x y).1 v) (d v) := by
  unfold revise
  exact reviseFold_sublist x y _ (d x) (d, false) v

theorem revise_apply_self (c : Crossword) (d : Domains) {x y : Variable}
    (hxy : x ≠ y) (hnd : (d x).Nodup) :
    (revise c d x y).1 x
      = (d x).filter
          (fun w =>
            (d y).any (fun cw =>
              charAt w ((c.overlaps x y).getD (0, 0)).1
                == charAt cw ((c.overlaps x y).getD (0, 0)).2)) := by
  unfold revise
  rw [reviseFold_apply_self x y _ hxy (d x) (d, false) hnd]
  refine List.filter_congr ?_
  intro w hw
  simp [hw]

/-! ### Helper lemmas: the ac3 work queue -/

theorem mem_addArcsFold (x : Variable) :
    ∀ (ys : List Variable) (q : List (Variable × Variable)) (p : Variable × Variable),
    (p ∈ ys.foldl
        (fun q y => if (x, y) ∈ q then q else q ++ [(x, y)]) q
      ↔ p ∈ q ∨ ∃ y ∈ ys, p = (x, y)) := by
  intro ys
  induction ys with
  | nil => intro q p; simp
  | cons b t ih =>
    intro q p
    simp only [List.foldl_cons]
    rw [ih]
    by_cases hb : (x, b) ∈ q
    · rw [if_pos hb]
      constructor
      · rintro (h | h)
        · exact Or.inl h
        · exact Or.inr (by
            obtain ⟨y, hy, rfl⟩ := h
            exact ⟨y, List.mem_cons_of_mem _ hy, rfl⟩)
      · rintro (h | ⟨y, hy, rfl⟩)
        · exact Or.inl h
        · rcases List.mem_cons.mp hy with h1 | h1
          · exact Or.inl (h1 ▸ hb)
          · exact Or.inr ⟨y, h1, rfl⟩
    · rw [if_neg hb]
      simp only [List.mem_append, List.mem_singleton]
      constructor
      · rintro ((h | h) | h)
        · exact Or.inl h
        · exact Or.inr ⟨b, List.mem_cons_self _ _, h⟩
        · obtain ⟨y, hy, rfl⟩ := h
          exact Or.inr ⟨y, List.mem_cons_of_mem _ hy, rfl⟩
      · rintro (h | ⟨y, hy, rfl⟩)
        · exact Or.inl (Or.inl h)
        · rcases List.mem_cons.mp hy with h1 | h1
          · exact Or.inl (Or.inr (by rw [h1]))
          · exact Or.inr ⟨y, h1, rfl⟩

theorem mem_ac3InitQueue (c : Crossword)
    (arcs : Option (List (Variable × Variable))) (p : Variable × Variable) :
    p ∈ ac3InitQueue c arcs ↔ ∃ x ∈ c.vars, ∃ y ∈ neighbors c x, p = (x, y) := by
  unfold ac3InitQueue
  have hgen : ∀ (l : List Variable) (q : List (Variable × Variable)),
      (p ∈ l.foldl
          (fun queue x =>
            (neighbors c x).foldl
              (fun queue y => if (x, y) ∈ queue then queue else queue ++ [(x, y)])
              queue)
          q
        ↔ p ∈ q ∨ ∃ x ∈ l, ∃ y ∈ neighbors c x, p = (x, y)) := by
    intro l
    induction l with
    | nil => intro q; simp
    | cons a t ih =>
      intro q
      simp only [List.foldl_cons]
      rw [ih, mem_addArcsFold]
      constructor
      · rintro ((h | h) | h)
        · exact Or.inl h
        · obtain ⟨y, hy, rfl⟩ := h
          exact Or.inr ⟨a, List.mem_cons_self _ _, y, hy, rfl⟩
        · obtain ⟨x, hx, y, hy, rfl⟩ := h
          exact Or.inr ⟨x, List.mem_cons_of_mem _ hx, y, hy, rfl⟩
      · rintro (h | ⟨x, hx, y, hy, rfl⟩)
        · exact Or.inl (Or.inl h)
        · rcases List.mem_cons.mp hx with h1 | h1
          · exact Or.inl (Or.inr ⟨y, by rw [h1] at hy; exact hy, by rw [h1]⟩)
          · exact Or.inr ⟨x, h1, y, hy, rfl⟩
  rw [hgen]
  simp

theorem ac3InitQueue_indep (c : Crossword)
    (arcs : Option (List (Variable × Variable))) :
    ac3InitQueue c arcs = ac3InitQueue c none := rfl

theorem ac3InitQueue_eq_nil (c : Crossword)
    (h : ∀ x ∈ c.vars, neighbors c x = [])
    (arcs : Option (List (Variable × Variable))) :
    ac3InitQueue c arcs = [] := by
  cases hq : ac3InitQueue c arcs with
  | nil => rfl
  | cons p rest =>
    exfalso
    have hp : p ∈ ac3InitQueue c arcs := by rw [hq]; exact List.mem_cons_self _ _
    obtain ⟨x, hx, y, hy, rfl⟩ := (mem_ac3InitQueue c arcs p).mp hp
    rw [h x hx] at hy
    simp at hy

/-! ### Helper lemmas: ac3 -/

theorem ac3_fst_sublist (c : Crossword) (d : Domains)
    (arcs : Option (List (Variable × Variable))) (v : Variable) :
    List.Sublist ((ac3 c d arcs).1 v) (d v) := by
  unfold ac3
  cases hq : ac3InitQueue c arcs with
  | nil => exact List.Sublist.refl _
  | cons p rest =>
    obtain ⟨x, y⟩ := p
    simp only
    split
    · split
      · exact revise_sublist c d x y v
      · exact revise_sublist c d x y v
    · exact revise_sublist c d x y v

theorem ac3_eq_of_queue_nil (c : Crossword) (d : Domains)
    {arcs : Option (List (Variable × Variable))}
    (hq : ac3InitQueue c arcs = []) : ac3 c d arcs = (d, none) := by
  unfold ac3
  rw [hq]

theorem ac3_fst_of_queue_cons (c : Crossword) (d : Domains)
    {arcs : Option (List (Variable × Variable))} {x y : Variable}
    {rest : List (Variable × Variable)}
    (hq : ac3InitQueue c arcs = (x, y) :: rest) :
    (ac3 c d arcs).1 = (revise c d x y).1 := by
  unfold ac3
  rw [hq]
  show (if (revise c d x y).2 = true then
      if ((revise c d x y).1 x).length = 0 then ((revise c d x y).1, some false)
      else ((revise c d x y).1, some true)
    else ((revise c d x y).1, some true)).1 = (revise c d x y).1
  split
  · split <;> rfl
  · rfl

theorem ac3_second_run_fixed (c : Crossword) (d : Domains)
    (hnd : ∀ v ∈ c.vars, (d v).Nodup) (v : Variable) :
    (ac3 c (ac3 c d none).1 none).1 v = (ac3 c d none).1 v := by
  cases hq : ac3InitQueue c none with
  | nil =>
    rw [ac3_eq_of_queue_nil c _ hq]
  | cons p rest =>
    obtain ⟨x, y⟩ := p
    obtain ⟨x2, hx2, y2, hy2, heq⟩ :=
      (mem_ac3InitQueue c none (x, y)).mp (hq ▸ List.mem_cons_self _ _)
    injection heq with hxe hye
    subst hxe
    subst hye
    have hyx : y ≠ x := neighbors_ne hy2
    have hdx : (d x).Nodup := hnd x hx2
    rw [ac3_fst_of_queue_cons c _ hq, ac3_fst_of_queue_cons c d hq]
    by_cases hv : v = x
    · subst hv
      have hother : ((revise c d v y).1) y = d y :=
        revise_apply_ne c d y hyx
      have hself := revise_apply_self c d hyx.symm hdx
      rw [revise_apply_self c _ hyx.symm (by rw [hself]; exact hdx.filter _),
        hother, hself]
      refine List.filter_eq_self.mpr ?_
      intro w hw
      exact (List.mem_filter.mp hw).2
    · exact revise_apply_ne c _ y hv

/-! ### Helper lemmas: the consistency checker -/

theorem consistent_eq_true_iff (c : Crossword) (a : Assign)
    (hnd : (a.map Prod.fst).Nodup) :
    consistent c a = true ↔
      ((∀ p ∈ a, ∀ q ∈ a, p.1 ≠ q.1 → p.2 ≠ q.2) ∧
       (∀ p ∈ a, ∀ y ∈ neighbors c p.1, ∀ wy, dictGet a y = some wy →
          charAt p.2 ((c.overlaps p.1 y).getD (0, 0)).1
            = charAt wy ((c.overlaps p.1 y).getD (0, 0)).2)) := by
  unfold consistent
  rw [Bool.and_eq_true]
  constructor
  · rintro ⟨h1, h2⟩
    constructor
    · intro p hp q hq hne
      have hxy := (List.all_eq_true.mp
          ((List.all_eq_true.mp h1) p.1 (List.mem_map.mpr ⟨p, hp, rfl⟩)))
        q.1 (List.mem_map.mpr ⟨q, hq, rfl⟩)
      have hd : p.1 = q.1 ∨ ¬dictGet a p.1 = dictGet a q.1 := by simpa using hxy
      rcases hd with hd | hd
      · exact absurd hd hne
      · intro hpq2
        exact hd (by rw [mem_dictGet hnd hp, mem_dictGet hnd hq, hpq2])
    · intro p hp y hy wy hwy
      have hxy := (List.all_eq_true.mp
          ((List.all_eq_true.mp h2) p.1 (List.mem_map.mpr ⟨p, hp, rfl⟩))) y hy
      have hd : dictGet a y = none ∨
          optCharAt (dictGet a p.1) ((c.overlaps p.1 y).getD (0, 0)).1
            = optCharAt (dictGet a y) ((c.overlaps p.1 y).getD (0, 0)).2 := by
        simpa using hxy
      rcases hd with hd | hd
      · rw [hwy] at hd
        exact absurd hd (by simp)
      · rw [mem_dictGet hnd hp, hwy] at hd
        exact hd
  · rintro ⟨h1, h2⟩
    constructor
    · rw [List.all_eq_true]
      intro x hx
      rw [List.all_eq_true]
      intro y hy
      obtain ⟨p, hp, rfl⟩ := List.mem_map.mp hx
      obtain ⟨q, hq, rfl⟩ := List.mem_map.mp hy
      simp only [Bool.not_eq_eq_eq_not, Bool.not_true, decide_eq_false_iff_not]
      rintro ⟨hne, heq⟩
      rw [mem_dictGet hnd hp, mem_dictGet hnd hq] at heq
      exact h1 p hp q hq hne (by injection heq)
    · rw [List.all_eq_true]
      intro x hx
      rw [List.all_eq_true]
      intro y hy
      obtain ⟨p, hp, rfl⟩ := List.mem_map.mp hx
      simp only [Bool.not_eq_eq_eq_not, Bool.not_true, decide_eq_false_iff_not]
      rintro ⟨hsome, hne⟩
      obtain ⟨wy, hwy⟩ := Option.isSome_iff_exists.mp hsome
      apply hne
      rw [mem_dictGet hnd hp, hwy]
      exact h2 p hp y hy wy hwy

/-! ### Helper lemmas: completeness test and value ordering -/

theorem assignment_complete_iff (c : Crossword) (a : Assign) :
    assignment_complete c a = true ↔ ∀ v ∈ c.vars, v ∈ a.map Prod.fst := by
  simp [assignment_complete]

theorem zip_zip_map {α β γ : Type _} (l : List α) (f : α → β) (g : α → γ) :
    (l.zip (l.map f)).zip (l.map g) = l.map (fun v => ((v, f v), g v)) := by
  induction l with
  | nil => rfl
  | cons a t ih => simp [ih]

theorem mem_order_domain_values {c : Crossword} {d : Domains} {var : Variable}
    {assignment : Assign} {w : Word}
    (h : w ∈ order_domain_values c d var assignment) : w ∈ d var := by
  simp only [order_domain_values] at h
  obtain ⟨p, hp, rfl⟩ := List.mem_map.mp h
  obtain ⟨pa, pb⟩ := p
  exact (List.of_mem_zip ((List.perm_insertionSort _ _).mem_iff.mp hp)).1

theorem order_domain_values_nil {c : Crossword} {d : Domains} {var : Variable}
    (assignment : Assign) (h : d var = []) :
    order_domain_values c d var assignment = [] := by
  simp [order_domain_values, h]

/-! ### Helper lemmas: variable selection (MRV + degree) -/

theorem compare_vars_le_iff (x y : (Variable × Nat) × Nat) :
    compare_vars x y ≤ 0 ↔ (x.1.2 < y.1.2 ∨ (x.1.2 = y.1.2 ∧ y.2 ≤ x.2)) := by
  unfold compare_vars
  split_ifs <;> omega

theorem select_unassigned_variable_spec (c : Crossword) (d : Domains)
    (assignment : Assign) (var : Variable)
    (h : select_unassigned_variable c d assignment = some var) :
    var ∈ c.vars ∧ dictGet assignment var = none ∧
      ∀ u ∈ c.vars, dictGet assignment u = none →
        (d var).length ≤ (d u).length := by
  have hTot : IsTotal ((Variable × Nat) × Nat)
      (fun x y => compare_vars x y ≤ 0) := by
    constructor
    intro x y
    rw [compare_vars_le_iff, compare_vars_le_iff]
    omega
  have hTrans : IsTrans ((Variable × Nat) × Nat)
      (fun x y => compare_vars x y ≤ 0) := by
    constructor
    intro x y z hxy hyz
    rw [compare_vars_le_iff] at hxy hyz ⊢
    omega
  simp only [select_unassigned_variable] at h
  rw [zip_zip_map] at h
  rw [List.head?_map] at h
  obtain ⟨t0, ht0, hvar⟩ := Option.map_eq_some'.mp h
  have ht0mem := List.mem_of_mem_head? ht0
  have ht0temp := (List.perm_insertionSort _ _).mem_iff.mp ht0mem
  obtain ⟨v, hv, hvt⟩ := List.mem_map.mp ht0temp
  have hvfil := List.mem_filter.mp hv
  have hvarv : var = v := by rw [← hvar, ← hvt]
  subst hvarv
  refine ⟨hvfil.1, Option.isNone_iff_eq_none.mp (by simpa using hvfil.2), ?_⟩
  intro u hu hun
  have humem : u ∈ c.vars.filter (fun v2 => (dictGet assignment v2).isNone) :=
    List.mem_filter.mpr ⟨hu, by simp [hun]⟩
  have huelem :
      ((u, (d u).length), (neighbors c u).length) ∈
        ((c.vars.filter (fun v2 => (dictGet assignment v2).isNone)).map
          (fun v2 => ((v2, (d v2).length), (neighbors c v2).length))) :=
    List.mem_map.mpr ⟨u, humem, rfl⟩
  have huelem2 := (List.perm_insertionSort
      (fun x y => compare_vars x y ≤ 0) _).symm.mem_iff.mp huelem
  have hsorted := List.sorted_insertionSort
      (fun x y => compare_vars x y ≤ 0)
      ((c.vars.filter (fun v2 => (dictGet assignment v2).isNone)).map
        (fun v2 => ((v2, (d v2).length), (neighbors c v2).length)))
  cases hs : (((c.vars.filter (fun v2 => (dictGet assignment v2).isNone)).map
      (fun v2 => ((v2, (d v2).length), (neighbors c v2).length))).insertionSort
        (fun x y => compare_vars x y ≤ 0)) with
  | nil =>
    rw [hs] at ht0
    simp at ht0
  | cons t0b tail =>
    rw [hs] at ht0 hsorted huelem2
    have ht0b : t0b = t0 := by
      simpa using ht0
    subst ht0b
    have hbound :
        compare_vars t0b ((u, (d u).length), (neighbors c u).length) ≤ 0 ∨
          t0b = ((u, (d u).length), (neighbors c u).length) := by
      rcases List.mem_cons.mp huelem2 with h1 | h1
      · exact Or.inr h1.symm
      · exact Or.inl ((List.sorted_cons.mp hsorted).1 _ h1)
    have ht0v : t0b.1.2 = (d var).length := by rw [← hvt]
    rcases hbound with hb | hb
    · rw [compare_vars_le_iff] at hb
      rw [ht0v] at hb
      rcases hb with hb | hb
      · exact Nat.le_of_lt hb
      · exact Nat.le_of_eq hb.1
    · rw [← ht0v, hb]

/-! ### Helper lemmas: the search never mutates the Domain Store -/

theorem tryValues_snd (c : Crossword)
    (bt : Domains → Assign → Option Assign × Domains)
    (hbt : ∀ d2 a2, (bt d2 a2).2 = d2) (var : Variable) :
    ∀ (values : List Word) (d : Domains) (assignment : Assign),
    (tryValues c bt var d assignment values).2 = d := by
  intro values
  induction values with
  | nil => intro d a; rfl
  | cons w t ih =>
    intro d a
    simp only [tryValues]
    split
    · have hsnd := hbt d (a ++ [(var, w)])
      cases hb : bt d (a ++ [(var, w)]) with
      | mk ro d2 =>
        rw [hb] at hsnd
        cases ro with
        | some res => exact hsnd
        | none =>
          rw [show (d2 : Domains) = d from hsnd]
          exact ih d a
    · exact ih d a

theorem backtrackAux_snd (c : Crossword) :
    ∀ (n : Nat) (d : Domains) (assignment : Assign),
    (backtrackAux c n d assignment).2 = d := by
  intro n
  induction n with
  | zero => intro d a; rfl
  | succ n ih =>
    intro d a
    simp only [backtrackAux]
    split
    · rfl
    · split
      · rfl
      · exact tryValues_snd c _ (fun d2 a2 => ih d2 a2) _ _ d a

/-! ### Helper lemmas: soundness of the backtracking search -/

theorem tryValues_sound (c : Crossword) (d : Domains) (var : Variable)
    (bt : Domains → Assign → Option Assign × Domains)
    (hsnd : ∀ d2 a2, (bt d2 a2).2 = d2)
    (hbt : ∀ a2, SearchInv c d a2 →
      ∀ r, (bt d a2).1 = some r → SearchGood c d r)
    (hvar : var ∈ c.vars) :
    ∀ (values : List Word) (a : Assign), (∀ w ∈ values, w ∈ d var) →
      SearchInv c d a → dictGet a var = none →
      ∀ r, (tryValues c bt var d a values).1 = some r → SearchGood c d r := by
  intro values
  induction values with
  | nil =>
    intro a _ _ _ r hr
    exact absurd hr (by simp [tryValues])
  | cons w t ih =>
    intro a hvals hInv hvnone r hr
    simp only [tryValues] at hr
    split at hr
    · rename_i hcons2
      cases hb : bt d (a ++ [(var, w)]) with
      | mk ro d2 =>
        rw [hb] at hr
        have hd2 : d2 = d := by
          have hx := hsnd d (a ++ [(var, w)])
          rw [hb] at hx
          exact hx
        cases ro with
        | some res =>
          have hres : res = r := by simpa using hr
          subst hres
          refine hbt (a ++ [(var, w)]) ?_ res (by rw [hb])
          refine ⟨?_, ?_, hcons2⟩
          · rw [List.map_append]
            simp only [List.map_cons, List.map_nil]
            rw [List.nodup_append]
            refine ⟨hInv.1, List.nodup_singleton _, ?_⟩
            intro k hk
            simp only [List.mem_singleton]
            intro hkv
            exact (dictGet_eq_none_iff a var).mp hvnone (hkv ▸ hk)
          · intro p hp
            rcases List.mem_append.mp hp with h1 | h1
            · exact hInv.2.1 p h1
            · have hpw : p = (var, w) := by simpa using h1
              subst hpw
              exact ⟨hvar, hvals w (List.mem_cons_self _ _)⟩
        | none =>
          rw [hd2] at hr
          exact ih a (fun w2 hw2 => hvals w2 (List.mem_cons_of_mem _ hw2))
            hInv hvnone r hr
    · exact ih a (fun w2 hw2 => hvals w2 (List.mem_cons_of_mem _ hw2))
        hInv hvnone r hr

theorem backtrackAux_sound (c : Crossword) (d : Domains) :
    ∀ (n : Nat) (a : Assign), SearchInv c d a →
    ∀ r, (backtrackAux c n d a).1 = some r → SearchGood c d r := by
  intro n
  induction n with
  | zero =>
    intro a hInv r hr
    simp only [backtrackAux] at hr
    split at hr
    · rename_i hcomp
      have har : a = r := by simpa using hr
      subst har
      exact ⟨hcomp, hInv⟩
    · exact absurd hr (by simp)
  | succ n ih =>
    intro a hInv r hr
    simp only [backtrackAux] at hr
    by_cases hcomp : assignment_complete c a = true
    · rw [if_pos hcomp] at hr
      have har : a = r := by simpa using hr
      subst har
      exact ⟨hcomp, hInv⟩
    · rw [if_neg hcomp] at hr
      cases hsel : select_unassigned_variable c d a with
      | none =>
        rw [hsel] at hr
        exact absurd hr (by simp)
      | some var =>
        rw [hsel] at hr
        obtain ⟨hvmem, hvnone, _⟩ :=
          select_unassigned_variable_spec c d a var hsel
        exact tryValues_sound c d var (backtrackAux c n)
          (fun d2 a2 => backtrackAux_snd c n d2 a2)
          (fun a2 hInv2 r2 hr2 => ih a2 hInv2 r2 hr2) hvmem
          (order_domain_values c d var a) a
          (fun w hw => mem_order_domain_values hw) hInv hvnone r hr

/-! ### Helper lemmas: solve -/

theorem solve_eq (c : Crossword) :
    solve c = (backtrack c (ac3 c (nodeConsistentDomains c) none).1 []).1 := rfl

theorem backtrack_none_of_empty_domain (c : Crossword) (d : Domains)
    {v : Variable} (hv : v ∈ c.vars) (hdv : d v = []) :
    (backtrack c d []).1 = none := by
  unfold backtrack
  have hcount : unassignedCount c [] = c.vars.length := by
    unfold unassignedCount
    have hfil : (c.vars.filter fun u => (dictGet [] u).isNone) = c.vars :=
      List.filter_eq_self.mpr (fun u _ => rfl)
    rw [hfil]
  obtain ⟨n, hn⟩ : ∃ n, unassignedCount c [] = n + 1 := by
    rw [hcount]
    cases hvl : c.vars with
    | nil => rw [hvl] at hv; simp at hv
    | cons a t => exact ⟨t.length, by simp⟩
  rw [hn]
  simp only [backtrackAux]
  have hcomp : ¬ assignment_complete c [] = true := by
    intro hc
    have hvk := (assignment_complete_iff c []).mp hc v hv
    simp at hvk
  rw [if_neg hcomp]
  cases hsel : select_unassigned_variable c d [] with
  | none => rfl
  | some var0 =>
    obtain ⟨_, _, hmrv⟩ := select_unassigned_variable_spec c d [] var0 hsel
    have h0 : (d var0).length ≤ 0 := by
      have hb := hmrv v hv (by rfl)
      rw [hdv] at hb
      simpa using hb
    have hvar0nil : d var0 = [] := List.length_eq_zero.mp (Nat.le_zero.mp h0)
    show (tryValues c (backtrackAux c n) var0 d []
        (order_domain_values c d var0 [])).1 = none
    rw [order_domain_values_nil [] hvar0nil]
    rfl

/-! ### Claim theorems -/

/-- Claim C1 (code bug, concrete evaluation): on the two crossing slots
of `cw1`, `ac3` (run by `solve` after node consistency) returns the
success value `True` after popping only the first of the two queued
arcs, and invariant I2 does not hold at that point: the word "abc" in
the domain of `vY` has no partner left in the revised domain of `vX`.
The claim that success implies a drained queue and I2 is false of the
code: the `return True` sits inside the loop body. -/
theorem ac3_true_without_drain :
    (ac3 cw1 (nodeConsistentDomains cw1) none).2 = some true ∧
      ¬ arcConsistentAll cw1 (ac3 cw1 (nodeConsistentDomains cw1) none).1 := by
  decide

/-- Claim C2: running the arc-consistency engine twice in succession is
idempotent — the second run removes no word, leaving every slot's
domain exactly as the first run left it.  (With the queue modelled as a
deterministic structure rebuilt identically on each call, the second
run pops the same first arc, which the first run already made
consistent, so the single processed arc removes nothing.) -/
theorem ac3_idempotent (c : Crossword) (d : Domains)
    (hnd : ∀ v ∈ c.vars, (d v).Nodup) :
    ∀ v, (ac3 c (ac3 c d none).1 none).1 v = (ac3 c d none).1 v :=
  fun v => ac3_second_run_fixed c d hnd v

/-- Witness for C2 at the concrete crossword `cw1`. -/
theorem ac3_idempotent_witness :
    (∀ v ∈ cw1.vars, ((initDomains cw1) v).Nodup) ∧
      ∀ v, (ac3 cw1 (ac3 cw1 (initDomains cw1) none).1 none).1 v
        = (ac3 cw1 (initDomains cw1) none).1 v :=
  ⟨by decide, ac3_idempotent cw1 (initDomains cw1) (by decide)⟩

/-- Claim C3 (counterexample): on `cwB`, node consistency empties a
domain, yet `ac3` does not short-circuit to the unsatisfiable value
`False` — its queue is empty, so it falls through and returns `None` —
and `solve` still reports unsatisfiable, through the backtracking
search it unconditionally invokes. -/
theorem emptyDomain_no_ac3_shortcircuit :
    (∃ v ∈ cwB.vars, nodeConsistentDomains cwB v = []) ∧
      (ac3 cwB (nodeConsistentDomains cwB) none).2 ≠ some false ∧
      (ac3 cwB (nodeConsistentDomains cwB) none).2 = none ∧
      solve cwB = none := by
  decide

/-- Claim C3 (amended): when node-consistency enforcement alone empties
some slot's domain, `solve` reports unsatisfiable (`None`) — but via
the backtracking search, which `solve` always invokes and which fails
immediately on the empty domain, not via an AC-3 short-circuit. -/
theorem solve_none_of_empty_domain (c : Crossword)
    (h : ∃ v ∈ c.vars, nodeConsistentDomains c v = []) : solve c = none := by
  obtain ⟨v, hv, hempty⟩ := h
  rw [solve_eq]
  apply backtrack_none_of_empty_domain c _ hv
  have hsub := ac3_fst_sublist c (nodeConsistentDomains c) none v
  rw [hempty] at hsub
  exact List.sublist_nil.mp hsub

/-- Witness for the amended C3 at the concrete crossword `cwB`. -/
theorem solve_none_of_empty_domain_witness :
    (∃ v ∈ cwB.vars, nodeConsistentDomains cwB v = []) ∧ solve cwB = none :=
  ⟨by decide, solve_none_of_empty_domain cwB (by decide)⟩

/-- Claim C4 (code bug, concrete evaluation): supplying the non-empty
arc list `[(vX, vY)]` to `ac3` does not make the work queue start with
exactly that arc — the source never reads its `arcs` parameter and
always seeds the queue with every neighbor pair, here
`[(vX, vY), (vY, vX)]`. -/
theorem ac3_ignores_supplied_arcs :
    ac3InitQueue cw1 (some [(vX, vY)]) = [(vX, vY), (vY, vX)] ∧
      ac3InitQueue cw1 (some [(vX, vY)]) ≠ [(vX, vY)] := by
  decide

/-- Claim C5: `solve` returns either `None` or an assignment that is a
total mapping from slot to word (every crossword variable is assigned),
in which every assigned word has its slot's length, every assigned
neighbor pair agrees on the letters at its overlap indices, and no two
distinct slots hold the same word. -/
theorem solve_sound (c : Crossword) (hv : c.vars.Nodup) (hw : c.words.Nodup) :
    solve c = none ∨
      ∃ a, solve c = some a ∧
        (∀ v ∈ c.vars, ∃ w, dictGet a v = some w) ∧
        (∀ v w, dictGet a v = some w → v ∈ c.vars ∧ w.length = v.length) ∧
        (∀ x y wx wy, dictGet a x = some wx → dictGet a y = some wy →
          y ∈ neighbors c x →
          charAt wx ((c.overlaps x y).getD (0, 0)).1
            = charAt wy ((c.overlaps x y).getD (0, 0)).2) ∧
        (∀ x y wx wy, dictGet a x = some wx → dictGet a y = some wy →
          x ≠ y → wx ≠ wy) := by
  cases hres : (backtrack c (ac3 c (nodeConsistentDomains c) none).1 []).1 with
  | none => exact Or.inl (by rw [solve_eq, hres])
  | some a =>
    right
    have hgood := backtrackAux_sound c (ac3 c (nodeConsistentDomains c) none).1
      (unassignedCount c []) [] ⟨by simp, by simp, rfl⟩ a hres
    obtain ⟨hcomp, hknd, hkmem, hkcons⟩ := hgood
    have hchar := (consistent_eq_true_iff c a hknd).mp hkcons
    refine ⟨a, by rw [solve_eq, hres], ?_, ?_, ?_, ?_⟩
    · intro v hvmem
      have hsome : (dictGet a v).isSome = true :=
        (dictGet_isSome_iff a v).mpr ((assignment_complete_iff c a).mp hcomp v hvmem)
      exact Option.isSome_iff_exists.mp hsome
    · intro v w hdg
      have hpmem := dictGet_mem hdg
      obtain ⟨hvmem, hwmem⟩ := hkmem (v, w) hpmem
      have hsub := ac3_fst_sublist c (nodeConsistentDomains c) none v
      have hwnc : w ∈ nodeConsistentDomains c v := hsub.mem hwmem
      rw [nodeConsistentDomains_char c hw hv hvmem] at hwnc
      have hlen := List.mem_filter.mp hwnc
      refine ⟨hvmem, ?_⟩
      have := of_decide_eq_true hlen.2
      exact this.symm
    · intro x y wx wy hdx hdy hy
      exact hchar.2 (x, wx) (dictGet_mem hdx) y hy wy hdy
    · intro x y wx wy hdx hdy hne
      exact hchar.1 (x, wx) (dictGet_mem hdx) (y, wy) (dictGet_mem hdy) hne

/-- Witness for C5 at the concrete crossword `cw1`. -/
theorem solve_sound_witness :
    (cw1.vars.Nodup ∧ cw1.words.Nodup) ∧
      (solve cw1 = none ∨
        ∃ a, solve cw1 = some a ∧
          (∀ v ∈ cw1.vars, ∃ w, dictGet a v = some w) ∧
          (∀ v w, dictGet a v = some w → v ∈ cw1.vars ∧ w.length = v.length) ∧
          (∀ x y wx wy, dictGet a x = some wx → dictGet a y = some wy →
            y ∈ neighbors cw1 x →
            charAt wx ((cw1.overlaps x y).getD (0, 0)).1
              = charAt wy ((cw1.overlaps x y).getD (0, 0)).2) ∧
          (∀ x y wx wy, dictGet a x = some wx → dictGet a y = some wy →
            x ≠ y → wx ≠ wy)) :=
  ⟨⟨by decide, by decide⟩, solve_sound cw1 (by decide) (by decide)⟩

/-- Claim C6: after `enforce_node_consistency`, each slot's domain is
exactly the candidate words whose length equals the slot's length —
every word of mismatched length is removed, every matching one kept,
and the result for a slot depends only on that slot (the filter never
mentions any other slot's domain). -/
theorem enforce_node_consistency_filters_length (c : Crossword)
    (hv : c.vars.Nodup) (hw : c.words.Nodup) (var : Variable)
    (hmem : var ∈ c.vars) :
    enforce_node_consistency c (initDomains c) var
      = c.words.filter (fun w => decide (var.length = w.length)) :=
  nodeConsistentDomains_char c hw hv hmem

/-- Witness for C6: the slot `vX` of `cw1` keeps exactly its length-3
candidates. -/
theorem enforce_node_consistency_filters_length_witness :
    (cw1.vars.Nodup ∧ cw1.words.Nodup ∧ vX ∈ cw1.vars) ∧
      enforce_node_consistency cw1 (initDomains cw1) vX
        = cw1.words.filter (fun w => decide (vX.length = w.length)) :=
  ⟨⟨by decide, by decide, by decide⟩,
    enforce_node_consistency_filters_length cw1 (by decide) (by decide) vX
      (by decide)⟩

/-- Claim C7: for a partial assignment (with each slot assigned at most
once, as in a Python dict), `consistent` returns `true` exactly when no
two distinct assigned slots hold the same word and every assigned
neighbor pair agrees on the letters at its overlap indices; being a
Lean function into `Bool` over an unchanged assignment, it mutates
neither the assignment nor the domain store. -/
theorem consistent_characterization (c : Crossword) (a : Assign)
    (hnd : (a.map Prod.fst).Nodup) :
    consistent c a = true ↔
      ((∀ p ∈ a, ∀ q ∈ a, p.1 ≠ q.1 → p.2 ≠ q.2) ∧
       (∀ p ∈ a, ∀ y ∈ neighbors c p.1, ∀ wy, dictGet a y = some wy →
          charAt p.2 ((c.overlaps p.1 y).getD (0, 0)).1
            = charAt wy ((c.overlaps p.1 y).getD (0, 0)).2)) :=
  consistent_eq_true_iff c a hnd

/-- Witness for C7 at a concrete two-slot assignment on `cw1`. -/
theorem consistent_characterization_witness :
    ((([(vX, wABC), (vY, wCAT)] : Assign).map Prod.fst).Nodup) ∧
      (consistent cw1 [(vX, wABC), (vY, wCAT)] = true ↔
        ((∀ p ∈ ([(vX, wABC), (vY, wCAT)] : Assign),
            ∀ q ∈ ([(vX, wABC), (vY, wCAT)] : Assign),
              p.1 ≠ q.1 → p.2 ≠ q.2) ∧
         (∀ p ∈ ([(vX, wABC), (vY, wCAT)] : Assign),
            ∀ y ∈ neighbors cw1 p.1, ∀ wy,
              dictGet [(vX, wABC), (vY, wCAT)] y = some wy →
              charAt p.2 ((cw1.overlaps p.1 y).getD (0, 0)).1
                = charAt wy ((cw1.overlaps p.1 y).getD (0, 0)).2))) :=
  ⟨by decide, consistent_characterization cw1 [(vX, wABC), (vY, wCAT)] (by decide)⟩

/-- Claim C8: any call to the arc-consistency engine only shrinks
domains: after `ac3` (which revises through `revise`), and likewise
after any single `revise`, every slot's domain is a sublist (hence a
subset) of what it was, so its size never increases. -/
theorem ac3_domains_shrink (c : Crossword) (d : Domains)
    (arcs : Option (List (Variable × Variable))) (x y v : Variable) :
    (List.Sublist ((ac3 c d arcs).1 v) (d v) ∧
      ((ac3 c d arcs).1 v).length ≤ (d v).length) ∧
    (List.Sublist ((revise c d x y).1 v) (d v) ∧
      ((revise c d x y).1 v).length ≤ (d v).length) :=
  ⟨⟨ac3_fst_sublist c d arcs v, (ac3_fst_sublist c d arcs v).length_le⟩,
    ⟨revise_sublist c d x y v, (revise_sublist c d x y v).length_le⟩⟩

/-- Claim C9: the backtracking search leaves the Domain Store unchanged:
the store that comes back out of any `backtrack` call is exactly the
store that went in (the search only ever extends and retracts the
assignment; `select_unassigned_variable`, `order_domain_values` and
`consistent` only read the store). -/
theorem backtrack_preserves_domains (c : Crossword) (d : Domains)
    (assignment : Assign) : (backtrack c d assignment).2 = d :=
  backtrackAux_snd c (unassignedCount c assignment) d assignment

/-- Claim C10: on a crossword in which no slot has any neighbor, `ac3`
with no initial arcs builds an empty work queue, never enters the loop
body, and falls through without a `return`: it yields Python's `None` —
neither `True` nor `False` — and leaves the domains untouched. -/
theorem ac3_no_neighbors_returns_none (c : Crossword) (d : Domains)
    (h : ∀ x ∈ c.vars, neighbors c x = []) :
    ac3 c d none = (d, none) :=
  ac3_eq_of_queue_nil c d (ac3InitQueue_eq_nil c h none)

/-- Witness for C10 at the neighbor-free crossword `cwB`. -/
theorem ac3_no_neighbors_returns_none_witness :
    (∀ x ∈ cwB.vars, neighbors cwB x = []) ∧
      ac3 cwB (initDomains cwB) none = (initDomains cwB, none) :=
  ⟨by decide, ac3_no_neighbors_returns_none cwB (initDomains cwB) (by decide)⟩
